import Mathlib

/-!
Verification of the tiling core of E-IMG Slices (`src/main.py`).

The program cuts one raster image into tiles along one axis.  The core logic
verified here consists of:

* the BySize partition loop (`slice_by_size`, main.py lines 1321-1390, and the
  matching loop in `check_all_file_conflicts`, lines 1268-1290): starting from
  offset 0 it repeatedly emits a segment of width `min(param, dimension - offset)`
  and advances by that width while `offset < dimension`;
* the ByCount partition loop (`slice_by_count`, lines 1392-1460, and the
  matching loop in `check_all_file_conflicts`, lines 1291-1313): it computes
  `base = dimension // count`, `remainder = dimension % count` and emits
  `count` segments of width `base + 1` (first `remainder` of them) or `base`;
* the conflict checker `check_all_file_conflicts` (lines 1258-1319), which
  re-generates the planned filenames, probes each with `os.path.exists`, and
  collects the ones that exist; its outer `try/except` converts any internal
  failure into an empty result;
* `save_slice_image` (lines 1462-1473), which re-raises any save failure.

Modelling conventions:

* Machine integers of the source are `Nat` (all quantities are non-negative
  pixel counts and indices; Python ints do not overflow).
* The `while current < dimension` loops are embedded with explicit fuel; the
  fuel argument only counts loop iterations, and `none` means the loop did not
  finish within the given fuel.  Top-level wrappers pass `dimension` as fuel,
  which is shown sufficient whenever the chunk parameter is at least 1.
* The filesystem is a read-only parameter: `os.path.exists` becomes a function
  `String → Except String Bool` (the `Except` layer models a raised exception
  inside the probe).  The checker itself performs no writes by construction.
* The cooperative-cancellation flag `is_task_interrupted` becomes a function
  `Nat → Bool` giving the value observed by the n-th flag check of the run
  (`false` everywhere models the absent debug window).
* Saving a tile is modelled by its outcome: `enc i : Except String Unit` is the
  result of encoding tile `i`; `save_slice_image` wraps failures exactly as the
  Python `except` clause does.  A run records which filenames were written,
  which flag checks happened, and the final outcome (`.ok true` = completed,
  `.ok false` = interrupted, `.error e` = exception propagated to the caller).
-/

/-- Direction of slicing: 横向 (horizontal, along the width) or 纵向
(vertical, along the height). -/
inductive Direction where
  | horizontal
  | vertical
deriving Repr, DecidableEq

/-- Slicing method: 按大小切片 (BySize) or 按数量切片 (ByCount). -/
inductive Method where
  | bySize
  | byCount
deriving Repr, DecidableEq

/-- One segment of the sliced dimension: the crop box of a tile along the
slicing axis, as produced by the loops in `slice_by_size` / `slice_by_count`. -/
structure Segment where
  offset : Nat
  length : Nat
deriving Repr, DecidableEq

/-- Result of a slicing run: filenames written (in order), the loop indices at
which the interruption flag was checked (in order), and the control-flow
outcome (`.ok true` = returned True, `.ok false` = returned False after an
interrupt, `.error e` = exception `e` raised to the caller). -/
structure RunResult where
  written : List String
  checks : List Nat
  outcome : Except String Bool
deriving Repr

/-- The dimension selected by the direction: width for 横向, height for 纵向
(`width, height = self.image.size`). -/
def dirDim (dir : Direction) (width height : Nat) : Nat :=
  match dir with
  | .horizontal => width
  | .vertical => height

/-- Filename template used by every loop of the source:
`f"{base_name}_{i}_{offset}.{file_format}"`. -/
def mkFilename (base : String) (i offset : Nat) (fmt : String) : String :=
  base ++ "_" ++ toString i ++ "_" ++ toString offset ++ "." ++ fmt

/-- Segment view of the BySize loop (main.py 1330-1351): while
`current < width`, emit `(current, min size (width - current))` and advance.
Fuel counts remaining loop iterations; `none` means the loop did not terminate
within the fuel. -/
def sliceBySizeSegsAux (size width : Nat) : Nat → Nat → Option (List Segment)
  | 0, current => if current < width then none else some []
  | fuel + 1, current =>
    if current < width then
      (sliceBySizeSegsAux size width fuel (current + min size (width - current))).map
        (fun rest => ⟨current, min size (width - current)⟩ :: rest)
    else some []

/-- Segments produced by `slice_by_size` on one dimension, fuel `dim`. -/
def slice_by_size_segments (size dim : Nat) : Option (List Segment) :=
  sliceBySizeSegsAux size dim dim 0

/-- Segment view of the ByCount loop (main.py 1400-1421): `basew`, `rem` are
`dimension // count` and `dimension % count`; for `i` in `range count`, emit a
segment of length `basew + 1` when `i < rem` else `basew`, advancing the
offset accordingly. -/
def sliceByCountSegsAux (basew rem : Nat) : Nat → Nat → Nat → List Segment
  | 0, _, _ => []
  | n + 1, i, current =>
    ⟨current, if i < rem then basew + 1 else basew⟩ ::
      sliceByCountSegsAux basew rem n (i + 1)
        (current + (if i < rem then basew + 1 else basew))

/-- Segments produced by `slice_by_count` on one dimension.  Note: the source
computes `width // count` and `width % count` with Python division, which
raises `ZeroDivisionError` for `count = 0`; here `dim / 0 = 0`, and the
`count = 0` case is settled separately (the loop body never runs). -/
def slice_by_count_segments (count dim : Nat) : List Segment :=
  sliceByCountSegsAux (dim / count) (dim % count) count 0 0

/-- Model of `save_slice_image` (main.py 1462-1473): the argument is the
outcome of `image.save`; any failure is re-raised as
`保存切片失败: {original error}`. -/
def save_slice_image (encodeResult : Except String Unit) : Except String Unit :=
  match encodeResult with
  | .ok () => .ok ()
  | .error e => .error ("保存切片失败: " ++ e)

/-- Body of the BySize slicing loop (main.py 1330-1351), one direction.
Per iteration: check the interrupt flag (return False if set), crop, build the
filename from the 1-based index `i` and the current offset, save (propagating
a save failure as an exception), then advance.  `flag i` is the interrupt flag
value observed at the check of tile `i`; `enc i` is the outcome of encoding
tile `i`. -/
def sliceBySizeRunAux (flag : Nat → Bool) (enc : Nat → Except String Unit)
    (size width : Nat) (base fmt : String) : Nat → Nat → Nat → Option RunResult
  | 0, current, _ => if current < width then none else some ⟨[], [], .ok true⟩
  | fuel + 1, current, i =>
    if current < width then
      if flag i then some ⟨[], [i], .ok false⟩
      else
        match save_slice_image (enc i) with
        | .error e => some ⟨[], [i], .error e⟩
        | .ok () =>
          (sliceBySizeRunAux flag enc size width base fmt fuel
              (current + min size (width - current)) (i + 1)).map
            (fun r =>
              ⟨mkFilename base i current fmt :: r.written, i :: r.checks, r.outcome⟩)
    else some ⟨[], [], .ok true⟩

/-- The function-level `try/except` of both slicing functions: re-raise any
exception with an operation-level message prepended. -/
def wrapOutcome (pre : String) (r : RunResult) : RunResult :=
  { r with outcome := r.outcome.mapError (fun e => pre ++ e) }

/-- `slice_by_size` (main.py 1321-1390): dispatch on the direction, run the
loop over the selected dimension (fuel = that dimension), and re-raise any
exception as `按大小切片失败: …`. -/
def slice_by_size (flag : Nat → Bool) (enc : Nat → Except String Unit)
    (dir : Direction) (size width height : Nat) (base fmt : String) :
    Option RunResult :=
  (sliceBySizeRunAux flag enc size (dirDim dir width height) base fmt
      (dirDim dir width height) 0 1).map (wrapOutcome "按大小切片失败: ")

/-- Body of the ByCount slicing loop (main.py 1400-1453), one direction:
for `i` in `range count`, check the interrupt flag, crop a segment of length
`basew + 1` (if `i < rem`) or `basew`, save under the filename built from
index `i + 1` and the current offset, advance. -/
def sliceByCountRunAux (flag : Nat → Bool) (enc : Nat → Except String Unit)
    (basew rem : Nat) (base fmt : String) : Nat → Nat → Nat → RunResult
  | 0, _, _ => ⟨[], [], .ok true⟩
  | n + 1, i, current =>
    if flag i then ⟨[], [i], .ok false⟩
    else
      match save_slice_image (enc i) with
      | .error e => ⟨[], [i], .error e⟩
      | .ok () =>
        let r := sliceByCountRunAux flag enc basew rem base fmt n (i + 1)
          (current + (if i < rem then basew + 1 else basew))
        ⟨mkFilename base (i + 1) current fmt :: r.written, i :: r.checks, r.outcome⟩

/-- `slice_by_count` (main.py 1392-1460): dispatch on the direction, compute
`base`/`remainder` by Python floor division, run the `range(count)` loop, and
re-raise any exception as `按数量切片失败: …`. -/
def slice_by_count (flag : Nat → Bool) (enc : Nat → Except String Unit)
    (dir : Direction) (count width height : Nat) (base fmt : String) : RunResult :=
  wrapOutcome "按数量切片失败: "
    (sliceByCountRunAux flag enc (dirDim dir width height / count)
      (dirDim dir width height % count) base fmt count 0 0)

/-- The caller's dispatch (main.py 1131-1134): BySize methods call
`slice_by_size`, ByCount methods call `slice_by_count`. -/
def run_slicing (flag : Nat → Bool) (enc : Nat → Except String Unit)
    (dir : Direction) (m : Method) (param width height : Nat)
    (base fmt : String) : Option RunResult :=
  match m with
  | .bySize => slice_by_size flag enc dir param width height base fmt
  | .byCount => some (slice_by_count flag enc dir param width height base fmt)

/-- BySize branch of `check_all_file_conflicts` (main.py 1268-1290): the same
loop as `slice_by_size`, but instead of saving, each generated filename is
probed with `os.path.exists` (`ex`, which may itself raise) and appended to
the conflict list when it exists. -/
def checkBySizeAux (ex : String → Except String Bool) (param width : Nat)
    (base fmt : String) : Nat → Nat → Nat → Option (Except String (List String))
  | 0, current, _ => if current < width then none else some (.ok [])
  | fuel + 1, current, i =>
    if current < width then
      match ex (mkFilename base i current fmt) with
      | .error e => some (.error e)
      | .ok b =>
        (checkBySizeAux ex param width base fmt fuel
            (current + min param (width - current)) (i + 1)).map
          (fun r => r.map (fun rest =>
            if b then mkFilename base i current fmt :: rest else rest))
    else some (.ok [])

/-- ByCount branch of `check_all_file_conflicts` (main.py 1291-1313): the same
loop as `slice_by_count`, probing each filename instead of saving. -/
def checkByCountAux (ex : String → Except String Bool) (basew rem : Nat)
    (base fmt : String) : Nat → Nat → Nat → Except String (List String)
  | 0, _, _ => .ok []
  | n + 1, i, current =>
    match ex (mkFilename base (i + 1) current fmt) with
    | .error e => .error e
    | .ok b =>
      (checkByCountAux ex basew rem base fmt n (i + 1)
          (current + (if i < rem then basew + 1 else basew))).map
        (fun rest => if b then mkFilename base (i + 1) current fmt :: rest else rest)

/-- Body of `check_all_file_conflicts` before its `except` clause: dispatch on
method and direction exactly as main.py 1268-1313 (the image is assumed
loaded, so the early `if not self.image: return []` branch is not taken). -/
def check_inner (ex : String → Except String Bool) (base fmt : String)
    (dir : Direction) (m : Method) (param width height : Nat) :
    Option (Except String (List String)) :=
  match m with
  | .bySize => checkBySizeAux ex param (dirDim dir width height) base fmt
      (dirDim dir width height) 0 1
  | .byCount => some (checkByCountAux ex (dirDim dir width height / param)
      (dirDim dir width height % param) base fmt param 0 0)

/-- `check_all_file_conflicts` (main.py 1258-1319): the `try/except` wrapper
logs any exception and returns an empty list (`except Exception: … return []`,
lines 1317-1319). -/
def check_all_file_conflicts (ex : String → Except String Bool)
    (base fmt : String) (dir : Direction) (m : Method)
    (param width height : Nat) : Option (List String) :=
  match check_inner ex base fmt dir m param width height with
  | some (.ok conflicts) => some conflicts
  | some (.error _) => some []
  | none => none

/-- Modelled from the spec (§4.2 Plan Builder, not a separate function in the
source): the ordered filename plan of a job, `{base}_{index}_{offset}.{ext}`
with 1-based index, offsets `size*k` for BySize and
`base*k + min k remainder` for ByCount. -/
def planned_filenames (dir : Direction) (m : Method) (param width height : Nat)
    (base fmt : String) : List String :=
  match m with
  | .bySize =>
    (List.range ((dirDim dir width height + param - 1) / param)).map
      (fun k => mkFilename base (k + 1) (param * k) fmt)
  | .byCount =>
    (List.range param).map
      (fun k => mkFilename base (k + 1)
        ((dirDim dir width height / param) * k + min k (dirDim dir width height % param)) fmt)

/-! Arithmetic helpers about the ceiling division `(d + s - 1) / s` that
counts BySize loop iterations. -/

/-- One BySize iteration removes one from the iteration count. -/
lemma size_n_succ (s w c : Nat) (hs : 0 < s) (hlt : c < w) :
    (w - c + s - 1) / s = (w - (c + min s (w - c)) + s - 1) / s + 1 := by
  rcases le_or_lt s (w - c) with h | h
  · have hm : min s (w - c) = s := by omega
    rw [hm]
    have h1 : w - c + s - 1 = (w - (c + s) + s - 1) + s := by omega
    rw [h1, Nat.add_div_right _ hs]
  · have hm : min s (w - c) = w - c := by omega
    rw [hm]
    have h0 : w - (c + (w - c)) = 0 := by omega
    rw [h0]
    have h1 : w - c + s - 1 = (w - c - 1) + s := by omega
    have h2 : (0 : Nat) + s - 1 = s - 1 := by omega
    rw [h1, Nat.add_div_right _ hs, h2,
      Nat.div_eq_of_lt (by omega), Nat.div_eq_of_lt (by omega)]

/-- The iteration count is zero once the loop condition fails. -/
lemma size_n_zero (s w c : Nat) (hs : 0 < s) (hge : w ≤ c) :
    (w - c + s - 1) / s = 0 := by
  have h0 : w - c = 0 := by omega
  rw [h0]
  exact Nat.div_eq_of_lt (by omega)

/-- Unfolding one BySize iteration of the closed-form output list: the list
for offset `c` is the element at `c` followed by the list for the advanced
offset.  `g` takes the 1-based index and the offset of an element. -/
lemma size_range_dec {α : Type} (g : Nat → Nat → α) (s w c i : Nat)
    (hs : 0 < s) (hlt : c < w) :
    (List.range ((w - c + s - 1) / s)).map (fun j => g (i + j) (c + s * j)) =
      g i c :: (List.range ((w - (c + min s (w - c)) + s - 1) / s)).map
        (fun j => g (i + 1 + j) (c + min s (w - c) + s * j)) := by
  rw [size_n_succ s w c hs hlt, List.range_succ_eq_map, List.map_cons,
    List.map_map]
  refine congrArg₂ List.cons (by simp) (List.map_congr_left ?_)
  intro j hj
  rcases le_or_lt s (w - c) with h | h
  · have hm : min s (w - c) = s := by omega
    rw [hm]
    show g (i + (j + 1)) (c + s * (j + 1)) = g (i + 1 + j) (c + s + s * j)
    rw [Nat.mul_succ]
    congr 1 <;> omega
  · exfalso
    have hm : w - (c + min s (w - c)) = 0 := by omega
    rw [hm] at hj
    have h2 : (0 : Nat) + s - 1 = s - 1 := by omega
    rw [h2, Nat.div_eq_of_lt (by omega)] at hj
    simp at hj

/-- Closed form of the BySize segment loop: with fuel at least the remaining
distance, the loop terminates and returns one segment per iteration, the
`j`-th starting at `c + s * j` with length `min s (w - (c + s * j))`. -/
lemma sliceBySizeSegsAux_eq (s w : Nat) (hs : 0 < s) :
    ∀ fuel c, w - c ≤ fuel →
      sliceBySizeSegsAux s w fuel c =
        some ((List.range ((w - c + s - 1) / s)).map
          (fun j => ⟨c + s * j, min s (w - (c + s * j))⟩)) := by
  intro fuel
  induction fuel with
  | zero =>
    intro c hc
    have hge : w ≤ c := by omega
    simp only [sliceBySizeSegsAux, if_neg (by omega : ¬ c < w)]
    rw [size_n_zero s w c hs hge]
    simp
  | succ fuel ih =>
    intro c hc
    by_cases hlt : c < w
    · have hmin : 0 < min s (w - c) := by omega
      simp only [sliceBySizeSegsAux, if_pos hlt]
      rw [ih (c + min s (w - c)) (by omega)]
      simp only [Option.map_some']
      have dec := size_range_dec (fun _ off => Segment.mk off (min s (w - off)))
        s w c 0 hs hlt
      simp only at dec
      rw [dec]
    · simp only [sliceBySizeSegsAux, if_neg hlt]
      rw [size_n_zero s w c hs (by omega)]
      simp

/-- Closed form of `slice_by_size_segments`. -/
lemma slice_by_size_segments_eq (s dim : Nat) (hs : 0 < s) :
    slice_by_size_segments s dim =
      some ((List.range ((dim + s - 1) / s)).map
        (fun j => ⟨s * j, min s (dim - s * j)⟩)) := by
  rw [slice_by_size_segments, sliceBySizeSegsAux_eq s dim hs dim 0 (by omega)]
  simp

/-- A BySize segment index below the iteration count starts inside `w`. -/
lemma mul_lt_of_lt_ceil (s w j : Nat) (hs : 0 < s) (h : j < (w + s - 1) / s) :
    s * j < w := by
  have h2 : (j + 1) * s ≤ w + s - 1 := (Nat.le_div_iff_mul_le hs).mp h
  have h3 : (j + 1) * s = j * s + s := by ring
  have h4 : s * j = j * s := Nat.mul_comm s j
  omega

/-- Converse: an offset inside `w` belongs to a segment index below the
iteration count. -/
lemma lt_ceil_of_mul_lt (s w j : Nat) (hs : 0 < s) (h : s * j < w) :
    j < (w + s - 1) / s := by
  by_contra hc
  push_neg at hc
  have h2 : w + s - 1 < (j + 1) * s :=
    (Nat.div_lt_iff_lt_mul hs).mp (Nat.lt_succ_of_le hc)
  have h3 : (j + 1) * s = j * s + s := by ring
  have h4 : s * j = j * s := Nat.mul_comm s j
  omega

/-- The BySize iteration count covers the whole dimension. -/
lemma ceil_le (s w : Nat) (hs : 0 < s) : w ≤ s * ((w + s - 1) / s) := by
  by_contra hc
  push_neg at hc
  exact absurd (lt_ceil_of_mul_lt s w _ hs hc) (lt_irrefl _)

/-- A positive dimension gives at least one BySize iteration. -/
lemma ceil_pos (s w : Nat) (hs : 0 < s) (hw : 0 < w) : 0 < (w + s - 1) / s :=
  lt_ceil_of_mul_lt s w 0 hs (by simpa using hw)

/-- Every segment except the last has length exactly `s`. -/
lemma size_len_of_lt (s w j : Nat) (hs : 0 < s) (h : j + 1 < (w + s - 1) / s) :
    min s (w - s * j) = s := by
  have h2 : s * (j + 1) < w := mul_lt_of_lt_ceil s w (j + 1) hs h
  have h3 : s * (j + 1) = s * j + s := by ring
  omega

/-- The last BySize segment has length `w % s` when that is nonzero, else `s`. -/
lemma size_last_len (s w : Nat) (hs : 0 < s) (hw : 0 < w) :
    min s (w - s * ((w + s - 1) / s - 1)) = if w % s = 0 then s else w % s := by
  have hqr : s * (w / s) + w % s = w := Nat.div_add_mod w s
  have hrs : w % s < s := Nat.mod_lt _ hs
  have h1 : w + s - 1 = s * (w / s) + (w % s + s - 1) := by omega
  have hn : (w + s - 1) / s = w / s + (w % s + s - 1) / s := by
    rw [h1, Nat.mul_add_div hs]
  by_cases h0 : w % s = 0
  · have hx : (w % s + s - 1) / s = 0 := by
      have e : w % s + s - 1 = s - 1 := by omega
      rw [e]
      exact Nat.div_eq_of_lt (by omega)
    have hq1 : 1 ≤ w / s := by
      rcases Nat.eq_zero_or_pos (w / s) with h | h
      · rw [h] at hqr
        simp at hqr
        omega
      · exact h
    have hsq : s * (w / s - 1) + s = s * (w / s) := by
      have e3 : w / s - 1 + 1 = w / s := by omega
      calc s * (w / s - 1) + s = s * (w / s - 1 + 1) := by ring
        _ = s * (w / s) := by rw [e3]
    have e2 : (w + s - 1) / s - 1 = w / s - 1 := by
      rw [hn, hx]
      simp
    rw [e2]
    have e4 : w - s * (w / s - 1) = s := by omega
    rw [e4]
    simp [h0]
  · have hx : (w % s + s - 1) / s = 1 := by
      have e : w % s + s - 1 = (w % s - 1) + s := by omega
      rw [e, Nat.add_div_right _ hs, Nat.div_eq_of_lt (by omega)]
    have e2 : (w + s - 1) / s - 1 = w / s := by
      rw [hn, hx]
      simp
    rw [e2]
    have e4 : w - s * (w / s) = w % s := by omega
    rw [e4]
    have e5 : min s (w % s) = w % s := by omega
    rw [e5]
    simp [h0]

/-- Telescoping sum of successive differences of a step-monotone function. -/
lemma telescope_sum (g : Nat → Nat) (hg : ∀ i, g i ≤ g (i + 1)) :
    ∀ n, ((List.range n).map (fun j => g (j + 1) - g j)).sum = g n - g 0 := by
  have hmono : ∀ a b, a ≤ b → g a ≤ g b := fun a b h =>
    monotone_nat_of_le_succ hg h
  intro n
  induction n with
  | zero => simp
  | succ n ih =>
    rw [List.range_succ, List.map_append, List.sum_append, ih]
    simp only [List.map_cons, List.map_nil, List.sum_cons, List.sum_nil]
    have h1 := hmono 0 n (by omega)
    have h2 := hg n
    omega

/-- The BySize segment lengths sum to the dimension. -/
lemma bySize_sum (s w : Nat) (hs : 0 < s) :
    ((List.range ((w + s - 1) / s)).map (fun j => min s (w - s * j))).sum = w := by
  have hstep : ∀ i : Nat, min (s * i) w ≤ min (s * (i + 1)) w := by
    intro i
    have h3 : s * (i + 1) = s * i + s := by ring
    omega
  have tel := telescope_sum (fun j => min (s * j) w) hstep ((w + s - 1) / s)
  simp only [] at tel
  have heq : ∀ j ∈ List.range ((w + s - 1) / s),
      min s (w - s * j) = min (s * (j + 1)) w - min (s * j) w := by
    intro j hj
    have h3 : s * (j + 1) = s * j + s := by ring
    omega
  rw [List.map_congr_left heq, tel]
  have hle := ceil_le s w hs
  have h0 : s * 0 = 0 := by ring
  omega

/-- Closed form of the ByCount segment loop: the `j`-th of the remaining `n`
segments starts at the accumulated offset and has length `basew + 1` while
the running index is below `rem`, else `basew`. -/
lemma sliceByCountSegsAux_eq (basew rem : Nat) :
    ∀ n i c, sliceByCountSegsAux basew rem n i c =
      (List.range n).map (fun j =>
        ⟨c + basew * j + (min (i + j) rem - min i rem),
         basew + if i + j < rem then 1 else 0⟩) := by
  intro n
  induction n with
  | zero =>
    intro i c
    simp [sliceByCountSegsAux]
  | succ n ih =>
    intro i c
    simp only [sliceByCountSegsAux]
    rw [ih (i + 1) (c + (if i < rem then basew + 1 else basew))]
    rw [List.range_succ_eq_map, List.map_cons, List.map_map]
    refine congrArg₂ List.cons ?_ (List.map_congr_left ?_)
    · by_cases hi : i < rem <;> simp [hi]
    · intro j hj
      simp only [Function.comp_apply]
      have e1 : i + (j + 1) = i + 1 + j := by omega
      rw [e1]
      congr 1
      have h3 : basew * (j + 1) = basew * j + basew := by ring
      by_cases hi : i < rem <;> simp [hi] <;> omega

/-- Closed form of `slice_by_count_segments`. -/
lemma slice_by_count_segments_eq (count dim : Nat) :
    slice_by_count_segments count dim =
      (List.range count).map (fun j =>
        ⟨dim / count * j + min j (dim % count),
         dim / count + if j < dim % count then 1 else 0⟩) := by
  rw [slice_by_count_segments, sliceByCountSegsAux_eq]
  refine List.map_congr_left ?_
  intro j hj
  simp

/-- Generalized ByCount sum: over `count` iterations, `rem` of the lengths
are `basew + 1` and the rest `basew`. -/
lemma byCount_sum_aux (basew rem count : Nat) (h2 : rem ≤ count) :
    ((List.range count).map (fun j => basew + if j < rem then 1 else 0)).sum =
      basew * count + rem := by
  have hstep : ∀ i : Nat,
      basew * i + min i rem ≤ basew * (i + 1) + min (i + 1) rem := by
    intro i
    have h3 : basew * (i + 1) = basew * i + basew := by ring
    omega
  have tel := telescope_sum (fun j => basew * j + min j rem) hstep count
  simp only [] at tel
  have heq : ∀ j ∈ List.range count,
      basew + (if j < rem then 1 else 0) =
        basew * (j + 1) + min (j + 1) rem - (basew * j + min j rem) := by
    intro j hj
    have h3 : basew * (j + 1) = basew * j + basew := by ring
    by_cases hij : j < rem <;> simp [hij] <;> omega
  rw [List.map_congr_left heq, tel]
  have h5 : min count rem = rem := by omega
  have h6 : basew * 0 = 0 := by ring
  omega

/-- The ByCount segment lengths sum to the dimension. -/
lemma byCount_sum (count dim : Nat) (hc : 0 < count) :
    ((List.range count).map
      (fun j => dim / count + if j < dim % count then 1 else 0)).sum = dim := by
  have hqr : count * (dim / count) + dim % count = dim := Nat.div_add_mod dim count
  have hrs : dim % count < count := Nat.mod_lt _ hc
  rw [byCount_sum_aux (dim / count) (dim % count) count (le_of_lt hrs)]
  have h4 : dim / count * count = count * (dim / count) := by ring
  rw [h4]
  exact hqr

/-- Indexing a mapped range. -/
lemma getElem_range_map {α : Type} (f : Nat → α) (n j : Nat)
    (h : j < ((List.range n).map f).length) :
    ((List.range n).map f)[j] = f j := by
  simp

/-- Last element of a mapped range. -/
lemma getLast?_range_map {α : Type} (f : Nat → α) (n : Nat) (hn : 0 < n) :
    ((List.range n).map f).getLast? = some (f (n - 1)) := by
  obtain ⟨m, rfl⟩ : ∃ m, n = m + 1 := ⟨n - 1, by omega⟩
  rw [List.range_succ, List.map_append]
  simp [List.getLast?_concat]

/-- With chunk size 0 the BySize loop never advances `current`, so it does not
terminate for any amount of fuel. -/
lemma sizeAux_zero_chunk (dim : Nat) (hdim : 0 < dim) :
    ∀ fuel, sliceBySizeSegsAux 0 dim fuel 0 = none := by
  intro fuel
  induction fuel with
  | zero => simp [sliceBySizeSegsAux, hdim]
  | succ fuel ih =>
    simp only [sliceBySizeSegsAux]
    rw [if_pos hdim]
    have e : 0 + min 0 (dim - 0) = 0 := by simp
    rw [e, ih]
    rfl

/-- C1: For every dimension > 0 and chunk size ≥ 1, the BySize partition
produces exactly ceil(dimension/chunk) segments in offset order (the j-th
starting at chunk*j), every segment except possibly the last has length
chunk, the last has length dimension mod chunk when that is nonzero (else
chunk), the lengths sum to the dimension (so the short tail is always emitted,
never merged or dropped), and dimension 1000 with chunk 300 yields the
segments (0,300), (300,300), (600,300), (900,100). -/
theorem bySize_partition_spec (dim s : Nat) (hdim : 0 < dim) (hs : 1 ≤ s) :
    ∃ segs, slice_by_size_segments s dim = some segs ∧
      segs.length = (dim + s - 1) / s ∧
      (∀ j, (hj : j < segs.length) → segs[j].offset = s * j) ∧
      (∀ j, (hj : j + 1 < segs.length) → segs[j].length = s) ∧
      segs.getLast?.map Segment.length =
        some (if dim % s = 0 then s else dim % s) ∧
      (segs.map Segment.length).sum = dim ∧
      slice_by_size_segments 300 1000 =
        some [⟨0, 300⟩, ⟨300, 300⟩, ⟨600, 300⟩, ⟨900, 100⟩] := by
  refine ⟨_, slice_by_size_segments_eq s dim hs, by simp, ?_, ?_, ?_, ?_, by decide⟩
  · intro j hj
    rw [getElem_range_map]
  · intro j hj
    have hj' : j + 1 < (dim + s - 1) / s := by simpa using hj
    rw [getElem_range_map]
    exact size_len_of_lt s dim j hs hj'
  · rw [getLast?_range_map _ _ (ceil_pos s dim hs hdim)]
    simp only [Option.map_some']
    exact congrArg some (size_last_len s dim hs hdim)
  · rw [List.map_map]
    refine Eq.trans (congrArg List.sum (List.map_congr_left ?_)) (bySize_sum s dim hs)
    intro j hj
    rfl

/-- Witness for C1 at dimension 1000, chunk 300: the hypotheses hold and the
partition evaluates to four segments. -/
theorem bySize_partition_spec_witness :
    (0 < 1000 ∧ 1 ≤ 300) ∧ ∃ segs, slice_by_size_segments 300 1000 = some segs ∧
      segs.length = 4 := by
  refine ⟨⟨by decide, by decide⟩, ?_⟩
  obtain ⟨segs, hsegs, hlen, -⟩ := bySize_partition_spec 1000 300 (by decide) (by decide)
  exact ⟨segs, hsegs, by rw [hlen]⟩

/-- C2: For every dimension > 0 and 1 ≤ count ≤ dimension, the ByCount
partition produces exactly count segments in offset order (the j-th starting
at (dimension div count)*j + min j (dimension mod count)), the first
dimension mod count segments have length (dimension div count)+1 and the rest
have length dimension div count (remainder front-loaded), the lengths sum to
the dimension, and dimension 1000 with count 3 yields the segments
(0,334), (334,333), (667,333). -/
theorem byCount_partition_spec (dim count : Nat) (hdim : 0 < dim)
    (hc1 : 1 ≤ count) (hc2 : count ≤ dim) :
    (slice_by_count_segments count dim).length = count ∧
      (∀ j, (hj : j < (slice_by_count_segments count dim).length) →
        (slice_by_count_segments count dim)[j].offset =
          dim / count * j + min j (dim % count)) ∧
      (∀ j, (hj : j < (slice_by_count_segments count dim).length) →
        (slice_by_count_segments count dim)[j].length =
          if j < dim % count then dim / count + 1 else dim / count) ∧
      ((slice_by_count_segments count dim).map Segment.length).sum = dim ∧
      slice_by_count_segments 3 1000 = [⟨0, 334⟩, ⟨334, 333⟩, ⟨667, 333⟩] := by
  refine ⟨by rw [slice_by_count_segments_eq]; simp, ?_, ?_, ?_, by decide⟩
  · intro j hj
    simp only [slice_by_count_segments_eq] at hj ⊢
    rw [getElem_range_map]
  · intro j hj
    simp only [slice_by_count_segments_eq] at hj ⊢
    rw [getElem_range_map]
    by_cases hij : j < dim % count <;> simp [hij]
  · rw [slice_by_count_segments_eq, List.map_map]
    refine Eq.trans (congrArg List.sum (List.map_congr_left ?_))
      (byCount_sum count dim hc1)
    intro j hj
    rfl

/-- Witness for C2 at dimension 1000, count 3: the hypotheses hold and the
partition evaluates to the three stated segments. -/
theorem byCount_partition_spec_witness :
    (0 < 1000 ∧ 1 ≤ 3 ∧ 3 ≤ 1000) ∧
      slice_by_count_segments 3 1000 = [⟨0, 334⟩, ⟨334, 333⟩, ⟨667, 333⟩] := by
  refine ⟨⟨by decide, by decide, by decide⟩, ?_⟩
  obtain ⟨-, -, -, -, h⟩ := byCount_partition_spec 1000 3 (by decide) (by decide) (by decide)
  exact h

/-- C7 counterexample: for dimension 2 a count of exactly 2 (= the dimension)
yields two unit-length segments, not one whole-image segment. -/
theorem count_eq_dim_counterexample :
    slice_by_count_segments 2 2 = [⟨0, 1⟩, ⟨1, 1⟩] ∧
      slice_by_count_segments 2 2 ≠ [⟨0, 2⟩] := by decide

/-- C7 as amended: for every dimension > 0, a chunk size exactly equal to the
dimension yields exactly one segment covering the whole image, while a count
exactly equal to the dimension yields `dimension` segments of length 1 each
(a single whole-image segment only when the dimension is 1). -/
theorem whole_image_amended (dim : Nat) (hdim : 0 < dim) :
    slice_by_size_segments dim dim = some [⟨0, dim⟩] ∧
      slice_by_count_segments dim dim =
        (List.range dim).map (fun k => ⟨k, 1⟩) := by
  constructor
  · rw [slice_by_size_segments_eq dim dim hdim]
    have hn : (dim + dim - 1) / dim = 1 := by
      have e : dim + dim - 1 = (dim - 1) + dim := by omega
      rw [e, Nat.add_div_right _ hdim, Nat.div_eq_of_lt (by omega)]
    rw [hn]
    have e1 : List.range 1 = [0] := rfl
    rw [e1]
    simp
  · rw [slice_by_count_segments_eq]
    have h1 : dim / dim = 1 := Nat.div_self hdim
    have h2 : dim % dim = 0 := Nat.mod_self dim
    refine List.map_congr_left ?_
    intro j hj
    simp [h1, h2]

/-- Witness for the amended C7 at dimension 5: chunk 5 gives one whole
segment, count 5 gives five unit segments. -/
theorem whole_image_amended_witness :
    0 < 5 ∧ slice_by_size_segments 5 5 = some [⟨0, 5⟩] ∧
      slice_by_count_segments 5 5 = (List.range 5).map (fun k => ⟨k, 1⟩) := by
  refine ⟨by decide, ?_, ?_⟩
  · exact (whole_image_amended 5 (by decide)).1
  · exact (whole_image_amended 5 (by decide)).2

/-- C10: for every dimension > 0 and chunk ≥ 1 the BySize loop terminates
within `dimension` iterations of fuel, performing exactly
ceil(dimension/chunk) iterations, each emitted segment advancing the offset
by at least 1; with chunk = 0 the offset never advances and the loop does not
terminate for any fuel. -/
theorem bySize_termination (dim s : Nat) (hdim : 0 < dim) (hs : 1 ≤ s) :
    (∃ segs, slice_by_size_segments s dim = some segs ∧
        segs.length = (dim + s - 1) / s ∧ ∀ seg ∈ segs, 1 ≤ seg.length) ∧
      ∀ fuel, sliceBySizeSegsAux 0 dim fuel 0 = none := by
  refine ⟨⟨_, slice_by_size_segments_eq s dim hs, by simp, ?_⟩,
    sizeAux_zero_chunk dim hdim⟩
  intro seg hseg
  rw [List.mem_map] at hseg
  obtain ⟨j, hj, rfl⟩ := hseg
  rw [List.mem_range] at hj
  have := mul_lt_of_lt_ceil s dim j hs hj
  simp only []
  omega

/-- Witness for C10 at dimension 5, chunk 2: the loop terminates with three
segments, and with chunk 0 fuel 7 is still not enough. -/
theorem bySize_termination_witness :
    (0 < 5 ∧ 1 ≤ 2) ∧
      (∃ segs, slice_by_size_segments 2 5 = some segs ∧ segs.length = 3) ∧
      sliceBySizeSegsAux 0 5 7 0 = none := by
  refine ⟨⟨by decide, by decide⟩, ?_, ?_⟩
  · obtain ⟨⟨segs, hsegs, hlen, -⟩, -⟩ := bySize_termination 5 2 (by decide) (by decide)
    exact ⟨segs, hsegs, by rw [hlen]⟩
  · exact (bySize_termination 5 2 (by decide) (by decide)).2 7

/-- C4 (defect witness): the source performs no InvalidParameter validation.
With dimension 2 and count 3 (count > dimension) the ByCount loop emits the
zero-length segment (2,0) instead of failing; with chunk 0 the BySize loop
never terminates instead of failing. -/
theorem invalid_parameter_missing :
    slice_by_count_segments 3 2 = [⟨0, 1⟩, ⟨1, 1⟩, ⟨2, 0⟩] ∧
      (∃ seg ∈ slice_by_count_segments 3 2, seg.length = 0) ∧
      ∀ fuel, sliceBySizeSegsAux 0 2 fuel 0 = none := by
  refine ⟨by decide, by decide, sizeAux_zero_chunk 2 (by decide)⟩

/-- Head element of a mapped range. -/
lemma head?_range_map {α : Type} (f : Nat → α) (n : Nat) (hn : 0 < n) :
    ((List.range n).map f).head? = some (f 0) := by
  obtain ⟨m, rfl⟩ : ∃ m, n = m + 1 := ⟨n - 1, by omega⟩
  rw [List.range_succ_eq_map]
  simp

/-- Positional access into a mapped range via `get`. -/
lemma get_range_map {α : Type} (f : Nat → α) (n i : Nat)
    (h : i < ((List.range n).map f).length) :
    ((List.range n).map f).get ⟨i, h⟩ = f i := by
  simp only [List.get_eq_getElem, List.getElem_map, List.getElem_range]

/-- C6: for every dimension > 0 and valid strategy parameter (chunk ≥ 1 for
BySize, 1 ≤ count ≤ dimension for ByCount) the produced segment sequence has
first offset 0, strictly increasing offsets, each segment starting where the
previous ends (contiguous and non-overlapping), all lengths positive, and
lengths summing to the dimension. -/
theorem segment_sequence_invariant (dim s count : Nat) (hdim : 0 < dim)
    (hs : 1 ≤ s) (hc1 : 1 ≤ count) (hc2 : count ≤ dim) :
    (∃ segs, slice_by_size_segments s dim = some segs ∧
      segs.head?.map Segment.offset = some 0 ∧
      List.Pairwise (fun a b => a.offset < b.offset) segs ∧
      List.Chain' (fun a b => b.offset = a.offset + a.length) segs ∧
      (∀ seg ∈ segs, 0 < seg.length) ∧
      (segs.map Segment.length).sum = dim) ∧
    ((slice_by_count_segments count dim).head?.map Segment.offset = some 0 ∧
      List.Pairwise (fun a b => a.offset < b.offset)
        (slice_by_count_segments count dim) ∧
      List.Chain' (fun a b => b.offset = a.offset + a.length)
        (slice_by_count_segments count dim) ∧
      (∀ seg ∈ slice_by_count_segments count dim, 0 < seg.length) ∧
      ((slice_by_count_segments count dim).map Segment.length).sum = dim) := by
  constructor
  · refine ⟨_, slice_by_size_segments_eq s dim hs, ?_, ?_, ?_, ?_, ?_⟩
    · rw [head?_range_map _ _ (ceil_pos s dim hs hdim)]
      simp
    · rw [List.pairwise_map]
      refine (List.pairwise_lt_range _).imp_of_mem ?_
      intro a b ha hb hab
      simp only []
      exact (Nat.mul_lt_mul_left hs).mpr hab
    · rw [List.chain'_iff_get]
      intro i h
      rw [get_range_map, get_range_map]
      simp only []
      have h' : i < (dim + s - 1) / s - 1 := by simpa using h
      have hlen : i + 1 < (dim + s - 1) / s := by
        obtain ⟨n, hn⟩ : ∃ n, (dim + s - 1) / s = n := ⟨_, rfl⟩
        rw [hn] at h' ⊢
        omega
      have := size_len_of_lt s dim i hs hlen
      rw [this]
      ring
    · intro seg hseg
      rw [List.mem_map] at hseg
      obtain ⟨j, hj, rfl⟩ := hseg
      rw [List.mem_range] at hj
      have := mul_lt_of_lt_ceil s dim j hs hj
      simp only []
      omega
    · rw [List.map_map]
      refine Eq.trans (congrArg List.sum (List.map_congr_left ?_))
        (bySize_sum s dim hs)
      intro j hj
      rfl
  · have hb : 1 ≤ dim / count := (Nat.one_le_div_iff hc1).mpr hc2
    have hrs : dim % count < count := Nat.mod_lt _ hc1
    refine ⟨?_, ?_, ?_, ?_, ?_⟩
    · rw [slice_by_count_segments_eq, head?_range_map _ _ hc1]
      simp
    · rw [slice_by_count_segments_eq, List.pairwise_map]
      refine (List.pairwise_lt_range _).imp_of_mem ?_
      intro a b ha hb' hab
      simp only []
      have h4 : dim / count * a + dim / count ≤ dim / count * b := by
        have h5 : dim / count * (a + 1) ≤ dim / count * b :=
          Nat.mul_le_mul_left _ hab
        have h6 : dim / count * (a + 1) = dim / count * a + dim / count := by ring
        omega
      omega
    · rw [slice_by_count_segments_eq, List.chain'_iff_get]
      intro i h
      rw [get_range_map, get_range_map]
      simp only []
      have h6 : dim / count * (i + 1) = dim / count * i + dim / count := by ring
      by_cases hi : i < dim % count <;> simp [hi] <;> omega
    · intro seg hseg
      rw [slice_by_count_segments_eq, List.mem_map] at hseg
      obtain ⟨j, hj, rfl⟩ := hseg
      simp only []
      omega
    · rw [slice_by_count_segments_eq, List.map_map]
      refine Eq.trans (congrArg List.sum (List.map_congr_left ?_))
        (byCount_sum count dim hc1)
      intro j hj
      rfl

/-- Witness for C6 at dimension 7, chunk 3, count 2: hypotheses hold and both
partitions evaluate to concrete invariant-satisfying sequences. -/
theorem segment_sequence_invariant_witness :
    (0 < 7 ∧ 1 ≤ 3 ∧ 1 ≤ 2 ∧ 2 ≤ 7) ∧
      (∃ segs, slice_by_size_segments 3 7 = some segs ∧
        (segs.map Segment.length).sum = 7) ∧
      ((slice_by_count_segments 2 7).map Segment.length).sum = 7 := by
  refine ⟨⟨by decide, by decide, by decide, by decide⟩, ?_, ?_⟩
  · obtain ⟨⟨segs, hsegs, -, -, -, -, hsum⟩, -⟩ :=
      segment_sequence_invariant 7 3 2 (by decide) (by decide) (by decide) (by decide)
    exact ⟨segs, hsegs, hsum⟩
  · obtain ⟨-, -, -, -, -, hsum⟩ :=
      segment_sequence_invariant 7 3 2 (by decide) (by decide) (by decide) (by decide)
    exact hsum

/-- The BySize conflict-check loop probes exactly the filenames that the
BySize render loop writes: with an all-true existence probe, the conflict
list of `checkBySizeAux` equals the written-file list of an uninterrupted,
failure-free `sliceBySizeRunAux`, for any fuel, offset and index. -/
lemma checkBySize_eq_run (param width : Nat) (base fmt : String) :
    ∀ fuel current i,
      checkBySizeAux (fun _ => .ok true) param width base fmt fuel current i =
        (sliceBySizeRunAux (fun _ => false) (fun _ => .ok ()) param width base fmt
            fuel current i).map (fun r => .ok r.written) := by
  intro fuel
  induction fuel with
  | zero =>
    intro current i
    simp only [checkBySizeAux, sliceBySizeRunAux]
    by_cases h : current < width <;> simp [h]
  | succ fuel ih =>
    intro current i
    simp only [checkBySizeAux, sliceBySizeRunAux]
    by_cases h : current < width
    · simp only [if_pos h]
      rw [ih]
      cases hr : sliceBySizeRunAux (fun _ => false) (fun _ => .ok ()) param width
          base fmt fuel (current + min param (width - current)) (i + 1) <;>
        simp [save_slice_image, Except.map]
    · simp [h]

/-- The ByCount conflict-check loop probes exactly the filenames that the
ByCount render loop writes, for any remaining count, index and offset. -/
lemma checkByCount_eq_run (basew rem : Nat) (base fmt : String) :
    ∀ n i current,
      checkByCountAux (fun _ => .ok true) basew rem base fmt n i current =
        .ok (sliceByCountRunAux (fun _ => false) (fun _ => .ok ()) basew rem
            base fmt n i current).written := by
  intro n
  induction n with
  | zero =>
    intro i current
    simp [checkByCountAux, sliceByCountRunAux]
  | succ n ih =>
    intro i current
    simp only [checkByCountAux, sliceByCountRunAux]
    simp [save_slice_image, ih, Except.map]

/-- C3: for every image size, direction, method, parameter, base name and
format, the ordered filename sequence probed by `check_all_file_conflicts`
(observed with an all-true existence probe) is identical to the ordered
filename sequence written by the corresponding uninterrupted, failure-free
render pass — same count, same 1-based indices, same embedded offsets. -/
theorem conflict_probe_matches_render (w h param : Nat) (dir : Direction)
    (m : Method) (base fmt : String) :
    check_all_file_conflicts (fun _ => .ok true) base fmt dir m param w h =
      (run_slicing (fun _ => false) (fun _ => .ok ()) dir m param w h base fmt).map
        (fun r => r.written) := by
  cases m
  · cases dir <;>
      simp only [check_all_file_conflicts, check_inner, run_slicing,
        slice_by_size, dirDim] <;>
      rw [checkBySize_eq_run]
    · cases hr : sliceBySizeRunAux (fun _ => false) (fun _ => .ok ()) param w
          base fmt w 0 1 <;> simp [wrapOutcome]
    · cases hr : sliceBySizeRunAux (fun _ => false) (fun _ => .ok ()) param h
          base fmt h 0 1 <;> simp [wrapOutcome]
  · cases dir <;>
      simp only [check_all_file_conflicts, check_inner, run_slicing,
        slice_by_count, dirDim] <;>
      rw [checkByCount_eq_run] <;> simp [wrapOutcome]

/-- Characterization of an uninterrupted-save BySize run under an arbitrary
interrupt flag: if the flag is false at the first `k` checks and true at the
next one (when the plan is not exhausted), the run writes exactly the first
`k` planned filenames, checks the flag once per processed tile in index
order, and reports completion exactly when all tiles were written. -/
lemma sizeRun_eq (flag : Nat → Bool) (s w : Nat) (base fmt : String)
    (hs : 0 < s) :
    ∀ fuel c i k, w - c ≤ fuel →
      (∀ j, j < k → flag (i + j) = false) →
      k ≤ (w - c + s - 1) / s →
      (k < (w - c + s - 1) / s → flag (i + k) = true) →
      sliceBySizeRunAux flag (fun _ => .ok ()) s w base fmt fuel c i =
        some ⟨((List.range ((w - c + s - 1) / s)).map
            (fun j => mkFilename base (i + j) (c + s * j) fmt)).take k,
          (List.range (min (k + 1) ((w - c + s - 1) / s))).map (fun j => i + j),
          .ok (decide ((w - c + s - 1) / s ≤ k))⟩ := by
  intro fuel
  induction fuel with
  | zero =>
    intro c i k hfuel hkf hkn hkt
    have hge : w ≤ c := by omega
    have hn : (w - c + s - 1) / s = 0 := size_n_zero s w c hs hge
    rw [hn] at hkn ⊢
    have hk0 : k = 0 := by omega
    subst hk0
    simp [sliceBySizeRunAux, if_neg (not_lt.mpr hge)]
  | succ fuel ih =>
    intro c i k hfuel hkf hkn hkt
    by_cases hlt : c < w
    · have hmin : 0 < min s (w - c) := by omega
      have hn1 : (w - c + s - 1) / s =
          (w - (c + min s (w - c)) + s - 1) / s + 1 := size_n_succ s w c hs hlt
      obtain ⟨n', hn'⟩ : ∃ t, (w - (c + min s (w - c)) + s - 1) / s = t := ⟨_, rfl⟩
      rw [hn'] at hn1
      rw [hn1] at hkn hkt ⊢
      have hnames := size_range_dec (fun idx off => mkFilename base idx off fmt)
        s w c i hs hlt
      simp only [] at hnames
      rw [hn1, hn'] at hnames
      cases k with
      | zero =>
        have hflag : flag i = true := by
          have := hkt (by omega)
          simpa using this
        simp only [sliceBySizeRunAux, if_pos hlt, hflag, if_pos rfl]
        have hm1 : min 1 (n' + 1) = 1 := by omega
        rw [hm1]
        have e1 : List.range 1 = [0] := rfl
        rw [e1]
        simp
      | succ k' =>
        have hflag : flag i = false := by
          have := hkf 0 (by omega)
          simpa using this
        simp only [sliceBySizeRunAux, if_pos hlt, hflag, Bool.false_eq_true,
          if_false, save_slice_image]
        rw [ih (c + min s (w - c)) (i + 1) k' (by omega) ?_ ?_ ?_]
        · simp only [Option.map_some']
          rw [hn', hnames, List.take_succ_cons]
          refine congrArg some ?_
          refine congrArg₂ (RunResult.mk _) ?_ ?_
          · have hm2 : min (k' + 1 + 1) (n' + 1) = min (k' + 1) n' + 1 := by omega
            rw [hm2, List.range_succ_eq_map, List.map_cons, List.map_map]
            refine congrArg₂ List.cons (by simp) (List.map_congr_left ?_)
            intro j hj
            simp only [Function.comp_apply]
            omega
          · refine congrArg Except.ok ?_
            exact (decide_eq_decide.mpr (by omega)).symm
        · intro j hj
          have h := hkf (j + 1) (by omega)
          rwa [show i + (j + 1) = i + 1 + j by omega] at h
        · rw [hn']
          omega
        · rw [hn']
          intro hk
          have h := hkt (by omega)
          rwa [show i + (k' + 1) = i + 1 + k' by omega] at h
    · have hge : w ≤ c := by omega
      have hn : (w - c + s - 1) / s = 0 := size_n_zero s w c hs hge
      rw [hn] at hkn ⊢
      have hk0 : k = 0 := by omega
      subst hk0
      simp [sliceBySizeRunAux, if_neg (not_lt.mpr hge)]

/-- Characterization of an uninterrupted-save ByCount run under an arbitrary
interrupt flag: with the flag false at the first `k` checks and true at the
next (when tiles remain), the run writes exactly the first `k` planned
filenames, checks the flag once per processed tile in order, and reports
completion exactly when all `n` tiles were written. -/
lemma countRun_eq (flag : Nat → Bool) (basew rem : Nat) (base fmt : String) :
    ∀ n i c k,
      (∀ j, j < k → flag (i + j) = false) →
      k ≤ n →
      (k < n → flag (i + k) = true) →
      sliceByCountRunAux flag (fun _ => .ok ()) basew rem base fmt n i c =
        ⟨((List.range n).map (fun j => mkFilename base (i + j + 1)
            (c + basew * j + (min (i + j) rem - min i rem)) fmt)).take k,
          (List.range (min (k + 1) n)).map (fun j => i + j),
          .ok (decide (n ≤ k))⟩ := by
  intro n
  induction n with
  | zero =>
    intro i c k hkf hkn hkt
    have hk0 : k = 0 := by omega
    subst hk0
    simp [sliceByCountRunAux]
  | succ n ih =>
    intro i c k hkf hkn hkt
    have hnames : (List.range (n + 1)).map (fun j => mkFilename base (i + j + 1)
        (c + basew * j + (min (i + j) rem - min i rem)) fmt) =
        mkFilename base (i + 1) c fmt ::
          (List.range n).map (fun j => mkFilename base (i + 1 + j + 1)
            ((c + (if i < rem then basew + 1 else basew)) + basew * j +
              (min (i + 1 + j) rem - min (i + 1) rem)) fmt) := by
      rw [List.range_succ_eq_map, List.map_cons, List.map_map]
      refine congrArg₂ List.cons (by simp) (List.map_congr_left ?_)
      intro j hj
      simp only [Function.comp_apply]
      have e1 : i + (j + 1) + 1 = i + 1 + j + 1 := by omega
      rw [e1]
      have e2 : c + basew * (j + 1) + (min (i + (j + 1)) rem - min i rem) =
          c + (if i < rem then basew + 1 else basew) + basew * j +
            (min (i + 1 + j) rem - min (i + 1) rem) := by
        have h3 : basew * (j + 1) = basew * j + basew := by ring
        by_cases hi : i < rem <;> simp [hi] <;> omega
      rw [e2]
    cases k with
    | zero =>
      have hflag : flag i = true := by
        have := hkt (by omega)
        simpa using this
      simp only [sliceByCountRunAux, hflag, if_pos rfl]
      have hm1 : min 1 (n + 1) = 1 := by omega
      rw [hm1]
      have e1 : List.range 1 = [0] := rfl
      rw [e1]
      simp
    | succ k' =>
      have hflag : flag i = false := by
        have := hkf 0 (by omega)
        simpa using this
      simp only [sliceByCountRunAux, hflag, Bool.false_eq_true, if_false,
        save_slice_image]
      rw [ih (i + 1) (c + (if i < rem then basew + 1 else basew)) k' ?_ (by omega) ?_]
      · rw [hnames, List.take_succ_cons]
        refine congrArg₂ (RunResult.mk _) ?_ ?_
        · have hm2 : min (k' + 1 + 1) (n + 1) = min (k' + 1) n + 1 := by omega
          rw [hm2, List.range_succ_eq_map, List.map_cons, List.map_map]
          refine congrArg₂ List.cons (by simp) (List.map_congr_left ?_)
          intro j hj
          simp only [Function.comp_apply]
          omega
        · refine congrArg Except.ok ?_
          exact (decide_eq_decide.mpr (by omega)).symm
      · intro j hj
        have h := hkf (j + 1) (by omega)
        rwa [show i + (j + 1) = i + 1 + j by omega] at h
      · intro hk
        have h := hkt (by omega)
        rwa [show i + (k' + 1) = i + 1 + k' by omega] at h

/-- A BySize run with the flag never set and every save succeeding writes the
whole plan: one file per iteration, 1-based indices, offsets `s * k`. -/
lemma sizeRun_complete (s w : Nat) (base fmt : String) (hs : 0 < s) :
    sliceBySizeRunAux (fun _ => false) (fun _ => .ok ()) s w base fmt w 0 1 =
      some ⟨(List.range ((w + s - 1) / s)).map
          (fun k => mkFilename base (k + 1) (s * k) fmt),
        (List.range ((w + s - 1) / s)).map (fun j => 1 + j),
        .ok true⟩ := by
  have h := sizeRun_eq (fun _ => false) s w base fmt hs w 0 1 ((w - 0 + s - 1) / s)
    (by omega) (fun j hj => rfl) (le_refl _) (fun hlt => absurd hlt (lt_irrefl _))
  simp only [Nat.sub_zero] at h
  rw [h]
  refine congrArg some ?_
  congr 1
  · rw [List.take_of_length_le (by simp)]
    refine List.map_congr_left ?_
    intro j hj
    have e1 : 1 + j = j + 1 := by omega
    rw [e1, Nat.zero_add]
  · rw [min_eq_right (Nat.le_succ _)]
  · simp

/-- A ByCount run with the flag never set and every save succeeding writes
the whole plan: `count` files, 1-based indices, offsets
`basew * k + min k rem`. -/
lemma countRun_complete (basew rem count : Nat) (base fmt : String) :
    sliceByCountRunAux (fun _ => false) (fun _ => .ok ()) basew rem base fmt
        count 0 0 =
      ⟨(List.range count).map
          (fun k => mkFilename base (k + 1) (basew * k + min k rem) fmt),
        List.range count,
        .ok true⟩ := by
  have h := countRun_eq (fun _ => false) basew rem base fmt count 0 0 count
    (fun j hj => rfl) (le_refl _) (fun hlt => absurd hlt (lt_irrefl _))
  rw [h]
  congr 1
  · rw [List.take_of_length_le (by simp)]
    refine List.map_congr_left ?_
    intro j hj
    have e1 : 0 + j + 1 = j + 1 := by omega
    rw [e1, Nat.zero_add, Nat.zero_add, Nat.zero_min, Nat.sub_zero]
  · rw [min_eq_right (Nat.le_succ _)]
    refine Eq.trans (List.map_congr_left ?_) (List.map_id _)
    intro j hj
    exact Nat.zero_add j
  · simp

/-- A conflict check with a pure existence predicate returns the filter of
what the all-true probe returns: BySize loop. -/
lemma checkBySize_filter (ex : String → Bool) (param width : Nat)
    (base fmt : String) :
    ∀ fuel current i,
      checkBySizeAux (fun fn => .ok (ex fn)) param width base fmt fuel current i =
        (checkBySizeAux (fun _ => .ok true) param width base fmt fuel current i).map
          (Except.map (List.filter ex)) := by
  intro fuel
  induction fuel with
  | zero =>
    intro current i
    by_cases h : current < width <;> simp [checkBySizeAux, h, Except.map]
  | succ fuel ih =>
    intro current i
    by_cases h : current < width
    · simp only [checkBySizeAux, if_pos h]
      rw [ih]
      cases hr : checkBySizeAux (fun _ => .ok true) param width base fmt fuel
          (current + min param (width - current)) (i + 1)
      · simp
      · next v =>
        cases v with
        | ok l =>
          by_cases hfn : ex (mkFilename base i current fmt) <;>
            simp [hfn, Except.map, List.filter_cons]
        | error e => simp [Except.map]
    · simp [checkBySizeAux, h, Except.map]

/-- A conflict check with a pure existence predicate returns the filter of
what the all-true probe returns: ByCount loop. -/
lemma checkByCount_filter (ex : String → Bool) (basew rem : Nat)
    (base fmt : String) :
    ∀ n i current,
      checkByCountAux (fun fn => .ok (ex fn)) basew rem base fmt n i current =
        (checkByCountAux (fun _ => .ok true) basew rem base fmt n i current).map
          (List.filter ex) := by
  intro n
  induction n with
  | zero =>
    intro i current
    simp [checkByCountAux, Except.map]
  | succ n ih =>
    intro i current
    simp only [checkByCountAux]
    rw [ih]
    cases hr : checkByCountAux (fun _ => .ok true) basew rem base fmt n (i + 1)
        (current + (if i < rem then basew + 1 else basew)) with
    | ok l =>
      by_cases hfn : ex (mkFilename base (i + 1) current fmt) <;>
        simp [hfn, Except.map, List.filter_cons]
    | error e => simp [Except.map]

/-- C5: for every destination state (pure existence predicate `ex`), plan
parameters and names, `check_all_file_conflicts` returns exactly the planned
filenames that already exist, in plan order (the filter of the Plan Builder
sequence); an empty plan yields an empty conflict list; and a concrete plan
of 4 tiles of which the 1st and 3rd pre-exist yields exactly those two names
in plan order.  The checker is read-only by construction: the filesystem
enters only through the probe `ex` and the result is a plain list. -/
theorem conflict_checker_exact (ex : String → Bool) (dir : Direction)
    (m : Method) (param w h : Nat) (base fmt : String) (hp : 1 ≤ param) :
    check_all_file_conflicts (fun fn => .ok (ex fn)) base fmt dir m param w h =
      some ((planned_filenames dir m param w h base fmt).filter ex) ∧
    (planned_filenames dir m param w h base fmt = [] →
      check_all_file_conflicts (fun fn => .ok (ex fn)) base fmt dir m param w h =
        some []) ∧
    check_all_file_conflicts
        (fun fn => .ok (fn == "img_1_0.png" || fn == "img_3_600.png"))
        "img" "png" .horizontal .bySize 300 1000 800 =
      some ["img_1_0.png", "img_3_600.png"] := by
  have hmain : check_all_file_conflicts (fun fn => .ok (ex fn)) base fmt dir m
      param w h = some ((planned_filenames dir m param w h base fmt).filter ex) := by
    cases m
    · cases dir <;>
        simp only [check_all_file_conflicts, check_inner, dirDim, planned_filenames]
      · rw [checkBySize_filter, checkBySize_eq_run, sizeRun_complete param w base fmt hp]
        simp [Except.map]
      · rw [checkBySize_filter, checkBySize_eq_run, sizeRun_complete param h base fmt hp]
        simp [Except.map]
    · cases dir <;>
        simp only [check_all_file_conflicts, check_inner, dirDim, planned_filenames] <;>
        rw [checkByCount_filter, checkByCount_eq_run, countRun_complete] <;>
        simp [Except.map]
  refine ⟨hmain, ?_, ?_⟩
  · intro hemp
    rw [hmain, hemp]
    rfl
  · rfl

/-- Witness for C5: a 4-tile BySize plan (dimension 1000, chunk 300) against
a destination where the 1st and 3rd planned files exist returns exactly those
two names. -/
theorem conflict_checker_exact_witness :
    1 ≤ 300 ∧
      check_all_file_conflicts
          (fun fn => .ok (fn == "img_1_0.png" || fn == "img_3_600.png"))
          "img" "png" .horizontal .bySize 300 1000 800 =
        some ((planned_filenames .horizontal .bySize 300 1000 800 "img" "png").filter
          (fun fn => fn == "img_1_0.png" || fn == "img_3_600.png")) := by
  refine ⟨by decide, ?_⟩
  exact (conflict_checker_exact
    (fun fn => fn == "img_1_0.png" || fn == "img_3_600.png")
    .horizontal .bySize 300 1000 800 "img" "png" (by decide)).1

/-- C9: during a slicing run the cancellation flag is checked exactly once
per tile, before that tile is rendered.  If the flag is false at the first
`kS` checks of a BySize run (checks carry 1-based tile indices) and true at
the next check while tiles remain, the run writes exactly the first `kS`
planned files, records exactly one check per processed tile in order (the
interrupted tile is checked but not written), and completes only if no check
fired; already-written files stay in the result (no rollback).  The same
holds for a ByCount run, whose checks carry 0-based loop indices (`kC`
tiles written). -/
theorem cancellation_per_tile (flag : Nat → Bool) (dir : Direction)
    (param w h count kS kC nS : Nat) (base fmt : String)
    (hs : 1 ≤ param)
    (hnS : nS = (dirDim dir w h + param - 1) / param)
    (hkS1 : ∀ j, j < kS → flag (1 + j) = false)
    (hkS2 : kS ≤ nS)
    (hkS3 : kS < nS → flag (1 + kS) = true)
    (hkC1 : ∀ j, j < kC → flag j = false)
    (hkC2 : kC ≤ count)
    (hkC3 : kC < count → flag kC = true) :
    slice_by_size flag (fun _ => .ok ()) dir param w h base fmt =
      some ⟨((List.range nS).map
          (fun k => mkFilename base (k + 1) (param * k) fmt)).take kS,
        (List.range (min (kS + 1) nS)).map (fun j => 1 + j),
        .ok (decide (nS ≤ kS))⟩ ∧
    slice_by_count flag (fun _ => .ok ()) dir count w h base fmt =
      ⟨((List.range count).map (fun k => mkFilename base (k + 1)
          (dirDim dir w h / count * k + min k (dirDim dir w h % count)) fmt)).take kC,
        (List.range (min (kC + 1) count)).map (fun j => j),
        .ok (decide (count ≤ kC))⟩ := by
  constructor
  · have h := sizeRun_eq flag param (dirDim dir w h) base fmt hs
      (dirDim dir w h) 0 1 kS (by omega) hkS1
      (by rw [Nat.sub_zero, ← hnS]; exact hkS2)
      (by rw [Nat.sub_zero, ← hnS]; exact hkS3)
    rw [slice_by_size, h]
    simp only [Nat.sub_zero, ← hnS, Option.map_some']
    refine congrArg some ?_
    simp only [wrapOutcome, Except.mapError]
    refine congrArg₂ (RunResult.mk · · _) ?_ rfl
    refine congrArg (List.take kS) (List.map_congr_left ?_)
    intro j hj
    have e1 : 1 + j = j + 1 := by omega
    rw [e1, Nat.zero_add]
  · have h := countRun_eq flag (dirDim dir w h / count) (dirDim dir w h % count)
      base fmt count 0 0 kC (fun j hj => by rw [Nat.zero_add]; exact hkC1 j hj)
      hkC2 (fun hlt => by rw [Nat.zero_add]; exact hkC3 hlt)
    rw [slice_by_count, h]
    simp only [wrapOutcome, Except.mapError]
    refine congrArg₂ (RunResult.mk · · _) ?_ ?_
    · refine congrArg (List.take kC) (List.map_congr_left ?_)
      intro j hj
      have e1 : 0 + j + 1 = j + 1 := by omega
      rw [e1, Nat.zero_add, Nat.zero_add, Nat.zero_min, Nat.sub_zero]
    · refine List.map_congr_left ?_
      intro j hj
      exact Nat.zero_add j

/-- Witness for C9: with a flag that becomes true at the third check, a
BySize run (dimension 1000, chunk 300) writes exactly the first two tiles,
checks tiles 1, 2, 3 and stops interrupted, while a ByCount run with count 3
is never interrupted and writes all three tiles. -/
theorem cancellation_per_tile_witness :
    slice_by_size (fun i => decide (3 ≤ i)) (fun _ => .ok ()) .horizontal
        300 1000 800 "img" "png" =
      some ⟨["img_1_0.png", "img_2_300.png"], [1, 2, 3], .ok false⟩ ∧
    slice_by_count (fun i => decide (3 ≤ i)) (fun _ => .ok ()) .horizontal
        3 1000 800 "img" "png" =
      ⟨["img_1_0.png", "img_2_334.png", "img_3_667.png"], [0, 1, 2], .ok true⟩ := by
  have h := cancellation_per_tile (fun i => decide (3 ≤ i)) .horizontal
    300 1000 800 3 2 3 4 "img" "png" (by decide) (by decide)
    (by
      intro j hj
      simp only [decide_eq_false_iff_not]
      omega)
    (by decide)
    (by intro hlt; decide)
    (by
      intro j hj
      simp only [decide_eq_false_iff_not]
      omega)
    (by decide)
    (by intro hlt; exact absurd hlt (by decide))
  constructor
  · rw [h.1]
    rfl
  · rw [h.2]
    rfl

/-- C8 counterexample: an internal failure of the existence probe during the
conflict check is converted into a normal empty result — the inner loop
raises, and `check_all_file_conflicts` returns `some []` (a normal value)
instead of surfacing the error. -/
theorem conflict_error_swallowed_counterexample :
    check_inner (fun _ => .error "boom") "img" "png" .horizontal .bySize
        300 1000 800 = some (.error "boom") ∧
    check_all_file_conflicts (fun _ => .error "boom") "img" "png" .horizontal
        .bySize 300 1000 800 = some [] := ⟨rfl, rfl⟩

/-- C8 as amended: save errors inside the render operations are re-raised to
the caller, wrapped with operation-level context (`保存切片失败` by
`save_slice_image`, then `按大小切片失败`/`按数量切片失败` at function level,
without a tile index in the raised message), but `check_all_file_conflicts`
swallows any internal failure and returns a normal empty conflict list. -/
theorem error_surfacing_amended :
    (∀ e, save_slice_image (.error e) = .error ("保存切片失败: " ++ e)) ∧
    (∀ (flag : Nat → Bool) (enc : Nat → Except String Unit) param w h base fmt e,
      flag 1 = false → enc 1 = Except.error e → 0 < w →
      slice_by_size flag enc .horizontal param w h base fmt =
        some ⟨[], [1], .error ("按大小切片失败: " ++ ("保存切片失败: " ++ e))⟩) ∧
    (∀ (flag : Nat → Bool) (enc : Nat → Except String Unit) count w h base fmt e,
      flag 0 = false → enc 0 = Except.error e → 0 < count →
      slice_by_count flag enc .horizontal count w h base fmt =
        ⟨[], [0], .error ("按数量切片失败: " ++ ("保存切片失败: " ++ e))⟩) ∧
    (∀ (ex : String → Except String Bool) base fmt dir m param w h e,
      check_inner ex base fmt dir m param w h = some (.error e) →
      check_all_file_conflicts ex base fmt dir m param w h = some []) := by
  refine ⟨fun e => rfl, ?_, ?_, ?_⟩
  · intro flag enc param w h base fmt e hflag henc hw
    obtain ⟨w', rfl⟩ : ∃ t, w = t + 1 := ⟨w - 1, by omega⟩
    simp only [slice_by_size, dirDim, sliceBySizeRunAux, if_pos hw, hflag,
      Bool.false_eq_true, if_false, henc, save_slice_image, Option.map_some']
    rfl
  · intro flag enc count w h base fmt e hflag henc hc
    obtain ⟨c', rfl⟩ : ∃ t, count = t + 1 := ⟨count - 1, by omega⟩
    simp only [slice_by_count, dirDim, sliceByCountRunAux, hflag,
      Bool.false_eq_true, if_false, henc, save_slice_image]
    rfl
  · intro ex base fmt dir m param w h e hinner
    simp only [check_all_file_conflicts, hinner]

/-- Witness for the amended C8: concrete save failures propagate wrapped, and
a concrete probe failure is swallowed into an empty conflict list. -/
theorem error_surfacing_amended_witness :
    save_slice_image (.error "disk full") =
      .error ("保存切片失败: " ++ "disk full") ∧
    slice_by_size (fun _ => false) (fun _ => .error "disk full") .horizontal
        300 1000 800 "img" "png" =
      some ⟨[], [1], .error ("按大小切片失败: " ++ ("保存切片失败: " ++ "disk full"))⟩ ∧
    check_all_file_conflicts (fun _ => .error "probe") "img" "png" .horizontal
        .byCount 3 1000 800 = some [] := by
  refine ⟨error_surfacing_amended.1 "disk full", ?_, ?_⟩
  · exact error_surfacing_amended.2.1 _ _ 300 1000 800 "img" "png" "disk full"
      rfl rfl (by decide)
  · exact error_surfacing_amended.2.2.2 _ "img" "png" .horizontal .byCount
      3 1000 800 "probe" rfl
